import Mathlib

/-!
Shallow embedding of the admission-decision core of `ratelimiter-app`
(`pkg/service`: `Service.Acquire`, `acquireTokenBucket`, `acquireLeakyBucket`,
`Status`, `statusRedis`, `SetLimit`, `getLimitForKey`, `Metrics`).

Conventions of the embedding:
* Timestamps are Unix nanoseconds as `Nat` (Go `time.Time` / `time.Duration`
  are int64 nanosecond counts and every timestamp the program handles is
  nonnegative).  Duration comparisons in Go are signed, hence the `Int` casts.
* Go `int` limits are modelled as `Int` (they may be zero or negative).
* `sync.Map` / `map[string]int` are modelled as association lists; the Redis
  sorted set is an association list of (member, score) pairs — only its
  cardinality and score-range removal are ever observed, so list order is
  irrelevant to every decision.
* A Go runtime panic (integer division by zero in `acquireLeakyBucket` when
  the configured limit is 0) is modelled as `none` of an `Option` result.
-/

namespace RateLimiter

/-- Outcome of one `Acquire` call: the `"allowed"` flag plus the optional
`"error"` string of the returned `map[string]interface{}`. -/
structure Decision where
  allowed : Bool
  error : Option String
  deriving Repr, DecidableEq

/-- Timestamps: Unix nanoseconds. -/
abbrev Time := Nat

/-- The retained ("recentCalls") subsequence of a call history: entries with
`now.Sub(t) < s.window` (a signed `time.Duration` comparison). -/
def retainedCalls (window now : Time) (calls : List Time) : List Time :=
  calls.filter (fun t => (now : Int) - (t : Int) < (window : Int))

/-- One local (in-memory) token-bucket step for a single key, from
`acquireTokenBucket`'s non-Redis branch: prune to the window, deny without
storing when `len(recentCalls) >= limit`, otherwise append `now` and store. -/
def tbStep (limit : Int) (window now : Time) (calls : List Time) :
    Decision × List Time :=
  let recentCalls := retainedCalls window now calls
  if limit ≤ (recentCalls.length : Int) then
    (⟨false, some "rate limit exceeded"⟩, calls)
  else
    (⟨true, none⟩, recentCalls ++ [now])

/-- One leaky-bucket step for a single key, from `acquireLeakyBucket`:
`interval := s.window / time.Duration(limit)` (Go integer division truncates
toward zero, i.e. `Int.div`; division by a zero limit panics, modelled as
`none`); allow and store `recentCalls ++ [now]` when the retained list is
empty or `now.Sub(last) >= interval`, otherwise deny without storing. -/
def lbStep (limit : Int) (window now : Time) (calls : List Time) :
    Option (Decision × List Time) :=
  if limit = 0 then none
  else
    let interval : Int := Int.tdiv (window : Int) limit
    let recentCalls := retainedCalls window now calls
    match recentCalls.getLast? with
    | none => some (⟨true, none⟩, recentCalls ++ [now])
    | some last =>
      if interval ≤ (now : Int) - (last : Int) then
        some (⟨true, none⟩, recentCalls ++ [now])
      else
        some (⟨false, some "leaky bucket: rate limit exceeded"⟩, calls)

/-- The member string `ZAdd` writes for a call at `now`:
`fmt.Sprintf("%f", float64(now)/1e9)` keeps exactly six fractional digits,
i.e. the member carries the timestamp truncated to microsecond resolution. -/
def zMember (now : Time) : Nat := now / 1000

/-- The remote sorted set for one key: (member, score) pairs, members unique. -/
abbrev ZSet := List (Nat × Nat)

/-- `ZAdd`: inserting an already-present member replaces its score; a fresh
member is added to the set. -/
def zAdd (m score : Nat) (zs : ZSet) : ZSet :=
  if zs.any (fun e => e.1 = m) then
    zs.map (fun e => if e.1 = m then (m, score) else e)
  else
    zs ++ [(m, score)]

/-- `ZRemRangeByScore(key, "0", windowStart)` with `windowStart = now - window`:
remove every entry with score in the inclusive range `[0, now - window]`;
scores are nonnegative, so only the upper bound acts (an empty range when
`now < window`). -/
def zRemExpired (window now : Time) (zs : ZSet) : ZSet :=
  zs.filter (fun e => ¬ ((e.2 : Int) ≤ (now : Int) - (window : Int)))

/-- One shared-backend (Redis) token-bucket step with a successful pipeline,
from `acquireTokenBucket`'s Redis branch: remove expired entries, `ZAdd` the
new one, count, and deny iff `count > limit`; the `Expire` refresh does not
change membership.  The just-inserted entry is kept even on denial. -/
def rdStep (limit : Int) (window now : Time) (zs : ZSet) : Decision × ZSet :=
  let afterAdd := zAdd (zMember now) now (zRemExpired window now zs)
  if limit < (afterAdd.length : Int) then
    (⟨false, some "rate limit exceeded"⟩, afterAdd)
  else
    (⟨true, none⟩, afterAdd)

/-- Redis step including the pipeline-failure path: when `Exec` (or reading
the `ZCard` result) fails the call denies with `"redis error"`; the remote
set is left as it was from this process's point of view. -/
def rdStepFull (pipelineOk : Bool) (limit : Int) (window now : Time)
    (zs : ZSet) : Decision × ZSet :=
  if pipelineOk then rdStep limit window now zs
  else (⟨false, some "redis error"⟩, zs)

/-! Sequential per-key runs of the three step functions: the list of
allow/deny outcomes, the trace of (time, outcome) pairs, the final stored
state, and the subsequence of allowed call times. -/

def tbRun (limit : Int) (window : Time) (calls : List Time) :
    List Time → List Bool × List Time
  | [] => ([], calls)
  | now :: rest =>
    let step := tbStep limit window now calls
    let tail := tbRun limit window step.2 rest
    (step.1.allowed :: tail.1, tail.2)

def tbOuts (limit : Int) (window : Time) (calls : List Time)
    (times : List Time) : List Bool :=
  (tbRun limit window calls times).1

def tbFinal (limit : Int) (window : Time) (calls : List Time)
    (times : List Time) : List Time :=
  (tbRun limit window calls times).2

def tbPairs (limit : Int) (window : Time) (calls : List Time) :
    List Time → List (Time × Bool)
  | [] => []
  | now :: rest =>
    let step := tbStep limit window now calls
    (now, step.1.allowed) :: tbPairs limit window step.2 rest

def tbAllowedTimes (limit : Int) (window : Time) (calls : List Time) :
    List Time → List Time
  | [] => []
  | now :: rest =>
    let step := tbStep limit window now calls
    if step.1.allowed then now :: tbAllowedTimes limit window step.2 rest
    else tbAllowedTimes limit window step.2 rest

def lbAllowedTimes (limit : Int) (window : Time) (calls : List Time) :
    List Time → List Time
  | [] => []
  | now :: rest =>
    match lbStep limit window now calls with
    | none => []
    | some step =>
      if step.1.allowed then now :: lbAllowedTimes limit window step.2 rest
      else lbAllowedTimes limit window step.2 rest

def rdRun (limit : Int) (window : Time) (zs : ZSet) :
    List Time → List Bool × ZSet
  | [] => ([], zs)
  | now :: rest =>
    let step := rdStep limit window now zs
    let tail := rdRun limit window step.2 rest
    (step.1.allowed :: tail.1, tail.2)

def rdOuts (limit : Int) (window : Time) (zs : ZSet)
    (times : List Time) : List Bool :=
  (rdRun limit window zs times).1

def rdFinal (limit : Int) (window : Time) (zs : ZSet)
    (times : List Time) : ZSet :=
  (rdRun limit window zs times).2

/-! The `Service` value itself and its operations, from `service.go`.
`useRedis` stands for Go's `s.useRedis && s.redisClient != nil`.  Per-key
histories (`sync.Map`) and per-key limits (`map[string]int`) are association
lists; `LoadOrStore(key, []time.Time{})`'s insertion of a default empty slice
is dropped, since an absent key and an empty history are indistinguishable to
every read of the map.  The float `refill_rate` field of `Status` is
informational only and not modelled. -/

/-- Go `RateLimitAlgorithm` is an `int`; `TokenBucket = iota = 0`. -/
def TokenBucket : Int := 0

/-- Go `RateLimitAlgorithm` value `LeakyBucket = 1`. -/
def LeakyBucket : Int := 1

structure Service where
  userCalls : List (String × List Time)
  limit : Int
  window : Time
  limits : List (String × Int)
  useRedis : Bool
  redisSets : List (String × ZSet)
  successfulAcquires : Int
  failedAcquires : Int
  requestsLastSecond : Int
  redisLatencyMicros : Int
  algorithm : Int
  deriving Repr, DecidableEq

/-- Association-list read with a default (the `LoadOrStore` / map-index read). -/
def lookupD {α : Type} (m : List (String × α)) (k : String) (d : α) : α :=
  match m.lookup k with
  | some v => v
  | none => d

/-- Association-list write (the `Store` / map-index write). -/
def storeAssoc {α : Type} (m : List (String × α)) (k : String) (v : α) :
    List (String × α) :=
  if m.any (fun e => e.1 = k) then
    m.map (fun e => if e.1 = k then (k, v) else e)
  else
    m ++ [(k, v)]

/-- `getLimitForKey`: the per-key override if present, else the global default. -/
def getLimitForKey (s : Service) (key : String) : Int :=
  lookupD s.limits key s.limit

/-- `SetLimit`: unconditionally record a per-key quota. -/
def SetLimit (s : Service) (key : String) (limit : Int) : Service :=
  { s with limits := storeAssoc s.limits key limit }

/-- `acquireTokenBucket`: Redis branch when `useRedis` (the whole pipeline,
or the `"redis error"` denial when it fails), in-memory branch otherwise.
On the Redis branch both outcomes store the mutated set; on the local branch
only an allow stores the new history. -/
def acquireTokenBucket (s : Service) (pipelineOk : Bool) (now : Time)
    (key : String) : Decision × Service :=
  if s.useRedis then
    if pipelineOk then
      let redisKey := "ratelimit:" ++ key
      let step := rdStep (getLimitForKey s key) s.window now
        (lookupD s.redisSets redisKey [])
      if step.1.allowed then
        (step.1, { s with redisSets := storeAssoc s.redisSets redisKey step.2,
                          successfulAcquires := s.successfulAcquires + 1 })
      else
        (step.1, { s with redisSets := storeAssoc s.redisSets redisKey step.2,
                          failedAcquires := s.failedAcquires + 1 })
    else
      (⟨false, some "redis error"⟩,
       { s with failedAcquires := s.failedAcquires + 1 })
  else
    let step := tbStep (getLimitForKey s key) s.window now
      (lookupD s.userCalls key [])
    if step.1.allowed then
      (step.1, { s with userCalls := storeAssoc s.userCalls key step.2,
                        successfulAcquires := s.successfulAcquires + 1 })
    else
      (step.1, { s with failedAcquires := s.failedAcquires + 1 })

/-- `acquireLeakyBucket`: always the in-memory store; `none` is the Go panic
on a zero configured limit. -/
def acquireLeakyBucket (s : Service) (now : Time) (key : String) :
    Option (Decision × Service) :=
  match lbStep (getLimitForKey s key) s.window now (lookupD s.userCalls key []) with
  | none => none
  | some step =>
    if step.1.allowed then
      some (step.1, { s with userCalls := storeAssoc s.userCalls key step.2,
                             successfulAcquires := s.successfulAcquires + 1 })
    else
      some (step.1, { s with failedAcquires := s.failedAcquires + 1 })

/-- `Service.Acquire`: the key field of the input map (`none` models an
absent or non-string `"key"` field), the missing-key fast path, and the
algorithm dispatch; the `default` switch arm touches no counter. -/
def Acquire (s : Service) (pipelineOk : Bool) (now : Time)
    (input : Option String) : Option (Decision × Service) :=
  match input with
  | none =>
    some (⟨false, some "missing or invalid key"⟩,
          { s with failedAcquires := s.failedAcquires + 1 })
  | some key =>
    if key = "" then
      some (⟨false, some "missing or invalid key"⟩,
            { s with failedAcquires := s.failedAcquires + 1 })
    else if s.algorithm = TokenBucket then
      some (acquireTokenBucket s pipelineOk now key)
    else if s.algorithm = LeakyBucket then
      acquireLeakyBucket s now key
    else
      some (⟨false, some "unknown algorithm"⟩, s)

/-- Result map of `Service.Status` (without the informational float
`refill_rate`). -/
structure StatusResult where
  key : String
  tokensLeft : Int
  limit : Int
  windowSec : Nat
  source : Option String
  deriving Repr, DecidableEq

/-- `statusRedis`: prune the remote set, count it, clamp `limit - count` at 0. -/
def statusRedis (s : Service) (now : Time) (key : String) : Int × Service :=
  let redisKey := "ratelimit:" ++ key
  let afterRem := zRemExpired s.window now (lookupD s.redisSets redisKey [])
  let tokensLeft := getLimitForKey s key - (afterRem.length : Int)
  (if tokensLeft < 0 then 0 else tokensLeft,
   { s with redisSets := storeAssoc s.redisSets redisKey afterRem })

/-- `Service.Status`: Redis path when `useRedis` and the pipeline succeeds
(`redisOk`), otherwise the non-mutating local read.
`window_sec = int(window.Seconds())`. -/
def Status (s : Service) (redisOk : Bool) (now : Time) (key : String) :
    StatusResult × Service :=
  let limit := getLimitForKey s key
  if s.useRedis ∧ redisOk then
    let r := statusRedis s now key
    ({ key := key, tokensLeft := r.1, limit := limit,
       windowSec := s.window / 1000000000, source := some "redis" }, r.2)
  else
    let recentCalls := retainedCalls s.window now (lookupD s.userCalls key [])
    let tl := limit - (recentCalls.length : Int)
    ({ key := key, tokensLeft := if tl < 0 then 0 else tl, limit := limit,
       windowSec := s.window / 1000000000, source := none }, s)

/-- The five `name value` lines rendered by `Service.Metrics`, in order; the
goroutine gauge reads ambient runtime state and is passed in. -/
def Metrics (s : Service) (goroutines : Int) : List (String × Int) :=
  [("ratelimiter_successful_acquires", s.successfulAcquires),
   ("ratelimiter_failed_acquires", s.failedAcquires),
   ("ratelimiter_requests_last_second", s.requestsLastSecond),
   ("ratelimiter_redis_latency_microseconds", s.redisLatencyMicros),
   ("ratelimiter_goroutines", goroutines)]

/-- The `Service` built by `NewService`: default limit 5, one-minute window,
no per-key overrides, all int64 metric fields at Go's zero value; `redisUp`
records whether the startup ping succeeded. -/
def NewService (algorithm : Int) (redisUp : Bool) : Service :=
  { userCalls := [], limit := 5, window := 60000000000, limits := [],
    useRedis := redisUp, redisSets := [],
    successfulAcquires := 0, failedAcquires := 0,
    requestsLastSecond := 0, redisLatencyMicros := 0,
    algorithm := algorithm }

/-- States of a `Service` as the repository can produce them: every
construction in the repository (`NewService` and the test fixtures) leaves
the four int64 metric fields at Go's zero value, after which only `Acquire`,
`SetLimit` and `Status` ever touch the state (`Metrics` is a pure read). -/
inductive Reachable : Service → Prop where
  | init : ∀ s : Service, s.successfulAcquires = 0 → s.failedAcquires = 0 →
      s.requestsLastSecond = 0 → s.redisLatencyMicros = 0 → Reachable s
  | acquire : ∀ (s : Service) (pipelineOk : Bool) (now : Time)
      (input : Option String) (d : Decision) (s' : Service), Reachable s →
      Acquire s pipelineOk now input = some (d, s') → Reachable s'
  | setLimit : ∀ (s : Service) (k : String) (l : Int), Reachable s →
      Reachable (SetLimit s k l)
  | status : ∀ (s : Service) (redisOk : Bool) (now : Time) (k : String),
      Reachable s → Reachable (Status s redisOk now k).2

example : tbOuts 2 1000000000 [] [0, 10000000, 500000000, 1100000000]
    = [true, true, false, true] := by decide

example : tbOuts 2 1000000000 [] [0, 1, 2] = [true, true, false] := by decide

example : rdOuts 2 1000000000 [] [0, 1, 2] = [true, true, true] := by decide

example : (rdFinal 1 1000000000 [] [0, 1000, 2000]).length = 3 := by decide

example : Acquire (NewService 7 false) true 0 (some "k")
    = some (⟨false, some "unknown algorithm"⟩, NewService 7 false) := by decide

example : Acquire (SetLimit (NewService LeakyBucket false) "k" 0) true 5 (some "k")
    = none := by decide

example : (Acquire (SetLimit (NewService LeakyBucket false) "k" (-1)) true 5
    (some "k")).map (fun r => r.1.allowed) = some true := by decide

example : (Acquire (NewService 0 false) true 0 none).map (fun r => r.1)
    = some ⟨false, some "missing or invalid key"⟩ := by decide

/-- The entry `ZAdd` writes is in the resulting set, whether the member was
fresh or already present. -/
theorem zAdd_self_mem (m score : Nat) (zs : ZSet) :
    (m, score) ∈ zAdd m score zs := by
  unfold zAdd
  split
  · next h =>
    rcases List.any_eq_true.mp h with ⟨e, he, hm⟩
    refine List.mem_map.mpr ⟨e, he, ?_⟩
    simp only [decide_eq_true_eq] at hm
    simp [hm]
  · simp

/-- Claim C1: the local-backend token-bucket decision rule.  A call first
prunes the key's history to entries with `now - timestamp < window`; when the
retained count is at least the limit it denies with `rate limit exceeded` and
leaves the stored history unchanged (the denied attempt is not recorded),
otherwise it appends `now` to the retained subsequence, stores it, and
allows.  With limit 2 and a one-second window, sequential calls at 0ms, 10ms
and 500ms yield allow, allow, deny, and a fourth call at 1100ms allows. -/
theorem c1_local_token_bucket_decision :
    (∀ (limit : Int) (window now : Time) (calls : List Time),
        limit ≤ ((retainedCalls window now calls).length : Int) →
        tbStep limit window now calls
          = (⟨false, some "rate limit exceeded"⟩, calls))
    ∧ (∀ (limit : Int) (window now : Time) (calls : List Time),
        ((retainedCalls window now calls).length : Int) < limit →
        tbStep limit window now calls
          = (⟨true, none⟩, retainedCalls window now calls ++ [now]))
    ∧ tbOuts 2 1000000000 [] [0, 10000000, 500000000, 1100000000]
        = [true, true, false, true] := by
  refine ⟨?_, ?_, by decide⟩
  · intro limit window now calls h
    simp [tbStep, h]
  · intro limit window now calls h
    simp [tbStep, not_le.mpr h]

/-- Witness for C1 at concrete inputs: limit 0 denies an empty history,
limit 1 allows and stores the call time. -/
theorem c1_local_token_bucket_decision_witness :
    tbStep 0 5 3 [] = (⟨false, some "rate limit exceeded"⟩, [])
    ∧ tbStep 1 5 3 [] = (⟨true, none⟩, [3]) := by
  constructor
  · exact c1_local_token_bucket_decision.1 0 5 3 [] (by decide)
  · have h := c1_local_token_bucket_decision.2.1 1 5 3 [] (by decide)
    simpa using h

/-- Claim C4 (amended): the shared-backend token-bucket rule.  A failed
pipeline denies with `redis error`; a successful pipeline removes expired
entries, inserts the new one, and denies with `rate limit exceeded` exactly
when the post-insert count exceeds the limit, keeping the inserted entry even
on denial — so the remote set is NOT capped at `limit + 1`: it holds one
entry per non-expired call. -/
theorem c4_shared_token_bucket_decision :
    (∀ (limit : Int) (window now : Time) (zs : ZSet),
        rdStepFull false limit window now zs
          = (⟨false, some "redis error"⟩, zs))
    ∧ (∀ (limit : Int) (window now : Time) (zs : ZSet),
        limit < ((zAdd (zMember now) now (zRemExpired window now zs)).length : Int) →
        rdStepFull true limit window now zs
          = (⟨false, some "rate limit exceeded"⟩,
             zAdd (zMember now) now (zRemExpired window now zs)))
    ∧ (∀ (limit : Int) (window now : Time) (zs : ZSet),
        ((zAdd (zMember now) now (zRemExpired window now zs)).length : Int) ≤ limit →
        rdStepFull true limit window now zs
          = (⟨true, none⟩, zAdd (zMember now) now (zRemExpired window now zs)))
    ∧ (∀ (limit : Int) (window now : Time) (zs : ZSet),
        (zMember now, now) ∈ (rdStepFull true limit window now zs).2) := by
  refine ⟨fun limit window now zs => rfl, ?_, ?_, ?_⟩
  · intro limit window now zs h
    simp [rdStepFull, rdStep, h]
  · intro limit window now zs h
    simp [rdStepFull, rdStep, not_lt.mpr h]
  · intro limit window now zs
    have hm := zAdd_self_mem (zMember now) now (zRemExpired window now zs)
    simp only [rdStepFull, rdStep, if_true]
    split <;> exact hm

/-- Witness for C4 at concrete inputs: with an empty remote set a call at
time 3 inserts member 0; limit 0 denies, limit 1 allows. -/
theorem c4_shared_token_bucket_decision_witness :
    rdStepFull true 0 5 3 [] = (⟨false, some "rate limit exceeded"⟩, [(0, 3)])
    ∧ rdStepFull true 1 5 3 [] = (⟨true, none⟩, [(0, 3)])
    ∧ (0, 3) ∈ (rdStepFull true 1 5 3 []).2 := by
  refine ⟨?_, ?_, ?_⟩
  · have h := c4_shared_token_bucket_decision.2.1 0 5 3 [] (by decide)
    simpa using h
  · have h := c4_shared_token_bucket_decision.2.2.1 1 5 3 [] (by decide)
    simpa using h
  · have h := c4_shared_token_bucket_decision.2.2.2 1 5 3 []
    simpa using h

/-- Counterexample to C4 as stated: with limit 1 and a one-second window,
three sequential denial-heavy calls at 0µs, 1µs and 2µs leave THREE entries
in the remote set — more than `limit + 1 = 2` — and none of them is expired
at the time of the last call, so the `limit + 1` steady-state cap is false. -/
theorem c4_limit_plus_one_counterexample :
    rdOuts 1 1000000000 [] [0, 1000, 2000] = [true, false, false]
    ∧ (1 : Int) + 1 < ((rdFinal 1 1000000000 [] [0, 1000, 2000]).length : Int)
    ∧ zRemExpired 1000000000 2000 (rdFinal 1 1000000000 [] [0, 1000, 2000])
        = rdFinal 1 1000000000 [] [0, 1000, 2000] := by
  exact ⟨by decide, by decide, by decide⟩

/-- Claim C5: a missing, non-string or empty key denies immediately with the
missing-key error, increments the failed-acquire counter, and touches neither
the per-key histories nor the remote store nor any other field. -/
theorem c5_missing_key :
    ∀ (s : Service) (pipelineOk : Bool) (now : Time) (input : Option String),
      input = none ∨ input = some "" →
      Acquire s pipelineOk now input
        = some (⟨false, some "missing or invalid key"⟩,
                { s with failedAcquires := s.failedAcquires + 1 }) := by
  intro s pipelineOk now input h
  rcases h with h | h <;> subst h <;> simp [Acquire]

/-- Witness for C5: an absent key field on a fresh token-bucket service. -/
theorem c5_missing_key_witness :
    Acquire (NewService 0 true) true 7 none
      = some (⟨false, some "missing or invalid key"⟩,
              { NewService 0 true with failedAcquires := 1 }) := by
  have h := c5_missing_key (NewService 0 true) true 7 none (Or.inl rfl)
  simpa using h

/-- Claim C6 is a code bug; this evaluates the code at the failing inputs.
`SetLimit` accepts a non-positive limit, but under the leaky-bucket algorithm
a configured limit of 0 makes `Acquire` divide the window by zero — a Go
runtime panic, modelled as `none` — and a negative limit makes every call
ALLOWED (a negative interval satisfies the spacing test), not permanently
denied.  Only the token-bucket path denies as the claim demands. -/
theorem c6_nonpositive_limit_leaky_divergence :
    Acquire (SetLimit (NewService LeakyBucket false) "k" 0) true 5 (some "k")
      = none
    ∧ (Acquire (SetLimit (NewService LeakyBucket false) "k" (-1)) true 5
        (some "k")).map (fun r => r.1.allowed) = some true
    ∧ (Acquire (SetLimit (NewService TokenBucket false) "k" 0) true 5
        (some "k")).map (fun r => r.1.allowed) = some false
    ∧ (Acquire (SetLimit (NewService TokenBucket false) "k" (-1)) true 5
        (some "k")).map (fun r => r.1.allowed) = some false := by
  exact ⟨by decide, by decide, by decide, by decide⟩

/-- Claim C8 is a code bug; this evaluates the code at the failing input.
The member `ZAdd` writes is the `%f`-formatted timestamp (microsecond
resolution), so two calls 500ns apart produce the SAME member: the second
insert collapses onto the first and the remote set holds one entry after two
calls, contradicting member-uniqueness per call. -/
theorem c8_member_not_unique :
    zMember 0 = zMember 500
    ∧ rdFinal 5 1000000000 [] [0, 500] = [(0, 500)]
    ∧ (rdFinal 5 1000000000 [] [0, 500]).length = 1 := by
  exact ⟨rfl, by decide, by decide⟩

/-- Every token-bucket decision is either the plain allow or the
rate-limit denial. -/
theorem tbStep_shape (limit : Int) (window now : Time) (calls : List Time) :
    (tbStep limit window now calls).1 = ⟨false, some "rate limit exceeded"⟩
    ∨ (tbStep limit window now calls).1 = ⟨true, none⟩ := by
  simp only [tbStep]
  split <;> simp

/-- Every shared-backend decision from a successful pipeline is either the
plain allow or the rate-limit denial. -/
theorem rdStep_shape (limit : Int) (window now : Time) (zs : ZSet) :
    (rdStep limit window now zs).1 = ⟨false, some "rate limit exceeded"⟩
    ∨ (rdStep limit window now zs).1 = ⟨true, none⟩ := by
  simp only [rdStep]
  split <;> simp

/-- Every non-panicking leaky-bucket decision is either the plain allow or
the leaky-bucket denial. -/
theorem lbStep_shape (limit : Int) (window now : Time) (calls : List Time)
    (r : Decision × List Time) (h : lbStep limit window now calls = some r) :
    r.1 = ⟨true, none⟩
    ∨ r.1 = ⟨false, some "leaky bucket: rate limit exceeded"⟩ := by
  simp only [lbStep] at h
  split at h
  · exact absurd h (by simp)
  · split at h
    · have h2 := Option.some.inj h
      subst h2
      left; rfl
    · split at h
      · have h2 := Option.some.inj h
        subst h2
        left; rfl
      · have h2 := Option.some.inj h
        subst h2
        right; rfl

/-- Counter effect of one `acquireTokenBucket` call: an allow adds one
successful acquire, a deny adds one failed acquire, and the decision never
carries the unknown-algorithm error. -/
theorem acquireTokenBucket_counters (s : Service) (pOk : Bool) (now : Time)
    (key : String) :
    ((acquireTokenBucket s pOk now key).1.allowed = true →
      (acquireTokenBucket s pOk now key).2.successfulAcquires
          = s.successfulAcquires + 1
      ∧ (acquireTokenBucket s pOk now key).2.failedAcquires = s.failedAcquires)
    ∧ ((acquireTokenBucket s pOk now key).1.allowed = false →
      (acquireTokenBucket s pOk now key).2.successfulAcquires
          = s.successfulAcquires
      ∧ (acquireTokenBucket s pOk now key).2.failedAcquires
          = s.failedAcquires + 1)
    ∧ (acquireTokenBucket s pOk now key).1.error ≠ some "unknown algorithm" := by
  unfold acquireTokenBucket
  split
  · split
    · rcases rdStep_shape (getLimitForKey s key) s.window now
        (lookupD s.redisSets ("ratelimit:" ++ key) []) with hst | hst <;>
        simp [hst]
    · simp
  · rcases tbStep_shape (getLimitForKey s key) s.window now
      (lookupD s.userCalls key []) with hst | hst <;>
      simp [hst]

/-- Counter effect of one non-panicking `acquireLeakyBucket` call. -/
theorem acquireLeakyBucket_counters (s : Service) (now : Time) (key : String)
    (d : Decision) (s' : Service)
    (h : acquireLeakyBucket s now key = some (d, s')) :
    (d.allowed = true →
      s'.successfulAcquires = s.successfulAcquires + 1
      ∧ s'.failedAcquires = s.failedAcquires)
    ∧ (d.allowed = false →
      s'.successfulAcquires = s.successfulAcquires
      ∧ s'.failedAcquires = s.failedAcquires + 1)
    ∧ d.error ≠ some "unknown algorithm" := by
  unfold acquireLeakyBucket at h
  split at h
  · cases h
  · next step heq =>
    rcases lbStep_shape _ _ _ _ _ heq with hst | hst <;> rw [hst] at h <;>
      simp only [Option.some.injEq, Prod.mk.injEq, Bool.false_eq_true,
        if_true, if_false, ite_false, ite_true] at h <;>
      obtain ⟨hd, hs⟩ := h <;> subst hd <;> subst hs <;> simp

/-- Claim C9 (amended): every `Acquire` call that returns (does not panic)
increments exactly one of the two process-wide counters — the successful one
on an allow, the failed one on any deny — EXCEPT an unknown-algorithm deny,
which increments neither; and neither counter ever decreases. -/
theorem c9_counter_update :
    ∀ (s : Service) (pipelineOk : Bool) (now : Time) (input : Option String)
      (d : Decision) (s' : Service),
      Acquire s pipelineOk now input = some (d, s') →
      (d.allowed = true →
        s'.successfulAcquires = s.successfulAcquires + 1
        ∧ s'.failedAcquires = s.failedAcquires)
      ∧ (d.allowed = false → d.error ≠ some "unknown algorithm" →
        s'.successfulAcquires = s.successfulAcquires
        ∧ s'.failedAcquires = s.failedAcquires + 1)
      ∧ (d.error = some "unknown algorithm" →
        s'.successfulAcquires = s.successfulAcquires
        ∧ s'.failedAcquires = s.failedAcquires)
      ∧ s.successfulAcquires ≤ s'.successfulAcquires
      ∧ s.failedAcquires ≤ s'.failedAcquires := by
  intro s pipelineOk now input d s' h
  cases input with
  | none =>
    simp only [Acquire, Option.some.injEq, Prod.mk.injEq] at h
    obtain ⟨hd, hs⟩ := h
    subst hd; subst hs
    refine ⟨by simp, by simp, by simp, by simp, by simp⟩
  | some key =>
    simp only [Acquire] at h
    split at h
    · simp only [Option.some.injEq, Prod.mk.injEq] at h
      obtain ⟨hd, hs⟩ := h
      subst hd; subst hs
      refine ⟨by simp, by simp, by simp, by simp, by simp⟩
    · split at h
      · simp only [Option.some.injEq] at h
        have hc := acquireTokenBucket_counters s pipelineOk now key
        rw [h] at hc
        dsimp only at hc
        refine ⟨hc.1, fun hf _ => hc.2.1 hf, fun he => absurd he hc.2.2, ?_, ?_⟩ <;>
          cases hb : d.allowed
        · rcases hc.2.1 hb with ⟨h1, h2⟩; omega
        · rcases hc.1 hb with ⟨h1, h2⟩; omega
        · rcases hc.2.1 hb with ⟨h1, h2⟩; omega
        · rcases hc.1 hb with ⟨h1, h2⟩; omega
      · split at h
        · have hc := acquireLeakyBucket_counters s now key d s' h
          refine ⟨hc.1, fun hf _ => hc.2.1 hf, fun he => absurd he hc.2.2, ?_, ?_⟩ <;>
            cases hb : d.allowed
          · rcases hc.2.1 hb with ⟨h1, h2⟩; omega
          · rcases hc.1 hb with ⟨h1, h2⟩; omega
          · rcases hc.2.1 hb with ⟨h1, h2⟩; omega
          · rcases hc.1 hb with ⟨h1, h2⟩; omega
        · simp only [Option.some.injEq, Prod.mk.injEq] at h
          obtain ⟨hd, hs⟩ := h
          subst hd; subst hs
          refine ⟨by simp, ?_, by simp, le_refl _, le_refl _⟩
          intro _ hne
          exact absurd rfl hne

/-- Witness for C9: the first token-bucket call on a fresh local service is
allowed and moves the successful-acquire counter from 0 to 1. -/
theorem c9_counter_update_witness :
    ({ NewService 0 false with userCalls := [("u", [0])], successfulAcquires := 1 } : Service).successfulAcquires = (NewService 0 false).successfulAcquires + 1 := by
  have h := c9_counter_update (NewService 0 false) true 0 (some "u")
    ⟨true, none⟩
    { NewService 0 false with userCalls := [("u", [0])], successfulAcquires := 1 }
    (by decide)
  exact (h.1 rfl).1

/-- Counterexample to C9 as stated: a valid-key `Acquire` on a service whose
algorithm selector is 7 (neither token- nor leaky-bucket) returns the
unknown-algorithm denial and leaves the state — both counters included —
completely unchanged, so it does not increment exactly one counter. -/
theorem c9_unknown_algorithm_counterexample :
    Acquire (NewService 7 false) true 0 (some "k")
      = some (⟨false, some "unknown algorithm"⟩, NewService 7 false)
    ∧ (NewService 7 false).successfulAcquires = 0
    ∧ (NewService 7 false).failedAcquires = 0 := by
  exact ⟨by decide, rfl, rfl⟩

/-- Neither branch of `acquireTokenBucket` writes the requests-per-second or
Redis-latency gauges. -/
theorem acquireTokenBucket_metrics_frame (s : Service) (pOk : Bool)
    (now : Time) (key : String) :
    (acquireTokenBucket s pOk now key).2.requestsLastSecond
        = s.requestsLastSecond
    ∧ (acquireTokenBucket s pOk now key).2.redisLatencyMicros
        = s.redisLatencyMicros := by
  refine ⟨?_, ?_⟩ <;>
    · simp only [acquireTokenBucket]
      repeat' split
      all_goals rfl

/-- A non-panicking `acquireLeakyBucket` call writes neither gauge. -/
theorem acquireLeakyBucket_metrics_frame (s : Service) (now : Time)
    (key : String) (d : Decision) (s' : Service)
    (h : acquireLeakyBucket s now key = some (d, s')) :
    s'.requestsLastSecond = s.requestsLastSecond
    ∧ s'.redisLatencyMicros = s.redisLatencyMicros := by
  unfold acquireLeakyBucket at h
  split at h
  · cases h
  · split at h <;>
      · simp only [Option.some.injEq, Prod.mk.injEq] at h
        obtain ⟨-, hs⟩ := h
        subst hs
        exact ⟨rfl, rfl⟩

/-- A non-panicking `Acquire` call writes neither gauge. -/
theorem acquire_metrics_frame (s : Service) (pOk : Bool) (now : Time)
    (input : Option String) (d : Decision) (s' : Service)
    (h : Acquire s pOk now input = some (d, s')) :
    s'.requestsLastSecond = s.requestsLastSecond
    ∧ s'.redisLatencyMicros = s.redisLatencyMicros := by
  cases input with
  | none =>
    simp only [Acquire, Option.some.injEq, Prod.mk.injEq] at h
    obtain ⟨-, hs⟩ := h
    subst hs
    exact ⟨rfl, rfl⟩
  | some key =>
    simp only [Acquire] at h
    split at h
    · simp only [Option.some.injEq, Prod.mk.injEq] at h
      obtain ⟨-, hs⟩ := h
      subst hs
      exact ⟨rfl, rfl⟩
    · split at h
      · simp only [Option.some.injEq] at h
        have hf := acquireTokenBucket_metrics_frame s pOk now key
        rw [h] at hf
        exact hf
      · split at h
        · exact acquireLeakyBucket_metrics_frame s now key d s' h
        · simp only [Option.some.injEq, Prod.mk.injEq] at h
          obtain ⟨-, hs⟩ := h
          subst hs
          exact ⟨rfl, rfl⟩

/-- `Status` (on either backend path) writes neither gauge. -/
theorem status_metrics_frame (s : Service) (rOk : Bool) (now : Time)
    (k : String) :
    (Status s rOk now k).2.requestsLastSecond = s.requestsLastSecond
    ∧ (Status s rOk now k).2.redisLatencyMicros = s.redisLatencyMicros := by
  simp only [Status, statusRedis]
  split <;> exact ⟨rfl, rfl⟩

/-- Claim C10: no operation of the service ever writes the
requests-in-last-second or Redis-latency fields, so in every reachable state
they are still Go's zero value and the metrics export reports 0 on the
`ratelimiter_requests_last_second` and
`ratelimiter_redis_latency_microseconds` lines. -/
theorem c10_idle_metric_gauges :
    ∀ s : Service, Reachable s → ∀ g : Int,
      s.requestsLastSecond = 0 ∧ s.redisLatencyMicros = 0
      ∧ (Metrics s g).lookup "ratelimiter_requests_last_second" = some 0
      ∧ (Metrics s g).lookup "ratelimiter_redis_latency_microseconds"
          = some 0 := by
  intro s hs
  have hfields : s.requestsLastSecond = 0 ∧ s.redisLatencyMicros = 0 := by
    induction hs with
    | init s h1 h2 h3 h4 => exact ⟨h3, h4⟩
    | acquire s pOk now input d s' hr hacq ih =>
      have hf := acquire_metrics_frame s pOk now input d s' hacq
      exact ⟨hf.1.trans ih.1, hf.2.trans ih.2⟩
    | setLimit s k l hr ih => exact ih
    | status s rOk now k hr ih =>
      have hf := status_metrics_frame s rOk now k
      exact ⟨hf.1.trans ih.1, hf.2.trans ih.2⟩
  intro g
  refine ⟨hfields.1, hfields.2, ?_, ?_⟩ <;>
    simp [Metrics, List.lookup, hfields.1, hfields.2]

/-- Witness for C10 at the freshly constructed service. -/
theorem c10_idle_metric_gauges_witness :
    (NewService 0 true).requestsLastSecond = 0
    ∧ (NewService 0 true).redisLatencyMicros = 0
    ∧ (Metrics (NewService 0 true) 3).lookup
        "ratelimiter_requests_last_second" = some 0
    ∧ (Metrics (NewService 0 true) 3).lookup
        "ratelimiter_redis_latency_microseconds" = some 0 := by
  exact c10_idle_metric_gauges (NewService 0 true)
    (Reachable.init (NewService 0 true) rfl rfl rfl rfl) 3

/-- One-step unfolding of the stored-history fold. -/
theorem tbFinal_cons (limit : Int) (window : Time) (calls : List Time)
    (now : Time) (rest : List Time) :
    tbFinal limit window calls (now :: rest)
      = tbFinal limit window (tbStep limit window now calls).2 rest := rfl

/-- One-step unfolding of the allowed-times fold. -/
theorem tbAllowedTimes_cons (limit : Int) (window : Time) (calls : List Time)
    (now : Time) (rest : List Time) :
    tbAllowedTimes limit window calls (now :: rest)
      = if (tbStep limit window now calls).1.allowed
        then now :: tbAllowedTimes limit window (tbStep limit window now calls).2 rest
        else tbAllowedTimes limit window (tbStep limit window now calls).2 rest := rfl

/-- One-step unfolding of the decision-pair fold. -/
theorem tbPairs_cons (limit : Int) (window : Time) (calls : List Time)
    (now : Time) (rest : List Time) :
    tbPairs limit window calls (now :: rest)
      = (now, (tbStep limit window now calls).1.allowed)
        :: tbPairs limit window (tbStep limit window now calls).2 rest := rfl

/-- `tbStep` either denies on a full window, keeping the history unchanged,
or allows and appends the call time to the retained history. -/
theorem tbStep_cases (limit : Int) (window now : Time) (calls : List Time) :
    (limit ≤ ((retainedCalls window now calls).length : Int)
      ∧ tbStep limit window now calls
          = (⟨false, some "rate limit exceeded"⟩, calls))
    ∨ (((retainedCalls window now calls).length : Int) < limit
      ∧ tbStep limit window now calls
          = (⟨true, none⟩, retainedCalls window now calls ++ [now])) := by
  by_cases h : limit ≤ ((retainedCalls window now calls).length : Int)
  · exact Or.inl ⟨h, by simp [tbStep, h]⟩
  · exact Or.inr ⟨not_le.mp h, by simp [tbStep, h]⟩

/-- The call times paired with decisions are exactly the trace. -/
theorem tbPairs_map_fst (limit : Int) (window : Time) :
    ∀ (times calls : List Time),
      (tbPairs limit window calls times).map Prod.fst = times := by
  intro times
  induction times with
  | nil => intro calls; rfl
  | cons now rest ih => intro calls; simp [tbPairs, ih]

/-- Running a trace in two chunks chains through the stored history. -/
theorem tbPairs_append (limit : Int) (window : Time) :
    ∀ (ts1 : List Time) (calls : List Time) (ts2 : List Time),
      tbPairs limit window calls (ts1 ++ ts2)
        = tbPairs limit window calls ts1
          ++ tbPairs limit window (tbFinal limit window calls ts1) ts2 := by
  intro ts1
  induction ts1 with
  | nil => intro calls ts2; rfl
  | cons now rest ih =>
    intro calls ts2
    rw [List.cons_append, tbPairs_cons, tbPairs_cons, tbFinal_cons, ih,
      List.cons_append]

/-- Counting allowed pairs satisfying a time predicate is counting the
allowed times satisfying it. -/
theorem tbAllowedTimes_countP (limit : Int) (window : Time) (f : Time → Bool) :
    ∀ (times calls : List Time),
      (tbPairs limit window calls times).countP (fun p => p.2 && f p.1)
        = (tbAllowedTimes limit window calls times).countP f := by
  intro times
  induction times with
  | nil => intro calls; rfl
  | cons now rest ih =>
    intro calls
    rw [tbPairs, tbAllowedTimes_cons]
    cases hb : (tbStep limit window now calls).1.allowed <;>
      simp [List.countP_cons, hb, ih]

/-- Allowed call times still inside the window at a later instant `tEnd`
survive, in order, into the stored history: denied calls are never recorded,
and pruning at an intermediate call time only removes entries that are
already outside the window at `tEnd` as well. -/
theorem tb_allows_filter_sublist (limit : Int) (window : Time) (tEnd : Time) :
    ∀ (times calls : List Time), (∀ t ∈ times, t ≤ tEnd) →
      List.Sublist
        ((calls ++ tbAllowedTimes limit window calls times).filter
          (fun (t : Time) => decide ((tEnd : Int) - (t : Int) < (window : Int))))
        (tbFinal limit window calls times) := by
  intro times
  induction times with
  | nil =>
    intro calls _
    show List.Sublist ((calls ++ ([] : List Time)).filter
      (fun (t : Time) => decide ((tEnd : Int) - (t : Int) < (window : Int)))) calls
    rw [List.append_nil]
    exact List.filter_sublist calls
  | cons now rest ih =>
    intro calls hle
    have hnow : now ≤ tEnd := hle now (List.mem_cons_self now rest)
    have hrest : ∀ t ∈ rest, t ≤ tEnd := fun t ht =>
      hle t (List.mem_cons_of_mem now ht)
    rw [tbFinal_cons, tbAllowedTimes_cons]
    rcases tbStep_cases limit window now calls with ⟨hcnt, heq⟩ | ⟨hcnt, heq⟩
    · rw [heq]
      exact ih calls hrest
    · rw [heq]
      show List.Sublist
        ((calls ++ now :: tbAllowedTimes limit window
            (retainedCalls window now calls ++ [now]) rest).filter
          (fun (t : Time) => decide ((tEnd : Int) - (t : Int) < (window : Int))))
        (tbFinal limit window (retainedCalls window now calls ++ [now]) rest)
      have hfe : (calls ++ now :: tbAllowedTimes limit window
            (retainedCalls window now calls ++ [now]) rest).filter
            (fun (t : Time) => decide ((tEnd : Int) - (t : Int) < (window : Int)))
          = ((retainedCalls window now calls ++ [now])
              ++ tbAllowedTimes limit window
                (retainedCalls window now calls ++ [now]) rest).filter
            (fun (t : Time) => decide ((tEnd : Int) - (t : Int) < (window : Int))) := by
        rw [List.append_assoc, List.singleton_append, List.filter_append,
          List.filter_append]
        congr 1
        rw [retainedCalls, List.filter_filter]
        apply List.filter_congr
        intro t ht
        cases hf : decide ((tEnd : Int) - (t : Int) < (window : Int))
        · simp [hf]
        · have h1 : (tEnd : Int) - (t : Int) < (window : Int) :=
            of_decide_eq_true hf
          have h3 : (now : Int) ≤ (tEnd : Int) := by exact_mod_cast hnow
          have h2 : (now : Int) - (t : Int) < (window : Int) := by omega
          simp [hf, h2]
      rw [hfe]
      exact ih (retainedCalls window now calls ++ [now]) hrest

/-- Stored-history length bound: starting within the limit, sequential
token-bucket calls never leave more than `limit` entries stored. -/
theorem tbFinal_length_le (limit : Int) (window : Time) :
    ∀ (times calls : List Time), (calls.length : Int) ≤ limit →
      ((tbFinal limit window calls times).length : Int) ≤ limit := by
  intro times
  induction times with
  | nil => intro calls h; exact h
  | cons now rest ih =>
    intro calls h
    rw [tbFinal_cons]
    rcases tbStep_cases limit window now calls with ⟨hcnt, heq⟩ | ⟨hcnt, heq⟩
    · rw [heq]; exact ih calls h
    · rw [heq]
      refine ih _ ?_
      have hl : (retainedCalls window now calls ++ [now]).length
          = (retainedCalls window now calls).length + 1 := by simp
      show ((retainedCalls window now calls ++ [now]).length : Int) ≤ limit
      rw [hl]
      push_cast
      omega

/-- In a nondecreasing trace, every element dropped by the `≤ tEnd` prefix
split lies strictly after `tEnd`. -/
theorem pairwise_dropWhile_gt (tEnd : Time) :
    ∀ times : List Time, List.Pairwise (· ≤ ·) times →
      ∀ t ∈ times.dropWhile (fun x => decide (x ≤ tEnd)), tEnd < t := by
  intro times
  induction times with
  | nil => intro _ t ht; simp at ht
  | cons a rest ih =>
    intro hp t ht
    by_cases ha : a ≤ tEnd
    · rw [List.dropWhile_cons_of_pos (by simpa using ha)] at ht
      exact ih hp.of_cons t ht
    · rw [List.dropWhile_cons_of_neg (by simpa using ha)] at ht
      rcases List.mem_cons.mp ht with rfl | htt
      · exact not_le.mp ha
      · exact lt_of_lt_of_le (not_le.mp ha) ((List.pairwise_cons.mp hp).1 t htt)

/-- Claim C2: under strictly sequential local token-bucket calls at
nondecreasing times with a nonnegative limit, at most `limit` allow-decisions
fall inside any rolling interval `(tEnd - window, tEnd]`, and the stored
history for the key never holds more than `limit` entries. -/
theorem c2_tb_window_admission_bound :
    ∀ (limit : Int) (window : Time) (times : List Time),
      0 ≤ limit → List.Pairwise (· ≤ ·) times →
      (∀ tEnd : Time,
        (((tbPairs limit window [] times).countP (fun (p : Time × Bool) =>
            p.2 && decide ((tEnd : Int) - (p.1 : Int) < (window : Int))
              && decide (p.1 ≤ tEnd))) : Int) ≤ limit)
      ∧ ((tbFinal limit window [] times).length : Int) ≤ limit := by
  intro limit window times hlim hsort
  refine ⟨?_, tbFinal_length_le limit window times [] (by simpa using hlim)⟩
  intro tEnd
  have hsplit := List.takeWhile_append_dropWhile
    (p := fun x : Time => decide (x ≤ tEnd)) (l := times)
  set ts1 := times.takeWhile (fun x : Time => decide (x ≤ tEnd)) with hts1
  set ts2 := times.dropWhile (fun x : Time => decide (x ≤ tEnd)) with hts2
  rw [← hsplit, tbPairs_append, List.countP_append]
  have h2zero : (tbPairs limit window (tbFinal limit window [] ts1) ts2).countP
      (fun (p : Time × Bool) => p.2 && decide ((tEnd : Int) - (p.1 : Int) < (window : Int))
        && decide (p.1 ≤ tEnd)) = 0 := by
    rw [List.countP_eq_zero]
    intro p hp
    have hmem : p.1 ∈ ts2 := by
      have hm := tbPairs_map_fst limit window ts2 (tbFinal limit window [] ts1)
      rw [← hm]
      exact List.mem_map_of_mem Prod.fst hp
    have hgt : tEnd < p.1 :=
      pairwise_dropWhile_gt tEnd times hsort p.1 (by rwa [hts2] at hmem)
    simp only [Bool.and_eq_true, decide_eq_true_eq]
    rintro ⟨-, hle⟩
    exact absurd hle (not_le.mpr hgt)
  rw [h2zero]
  have hts1le : ∀ t ∈ ts1, t ≤ tEnd := by
    intro t ht
    rw [hts1] at ht
    have h1 := List.mem_takeWhile_imp ht
    simpa using h1
  have hcongr : (tbPairs limit window [] ts1).countP (fun (p : Time × Bool) =>
        p.2 && decide ((tEnd : Int) - (p.1 : Int) < (window : Int))
          && decide (p.1 ≤ tEnd))
      = (tbPairs limit window [] ts1).countP (fun (p : Time × Bool) =>
        p.2 && decide ((tEnd : Int) - (p.1 : Int) < (window : Int))) := by
    apply List.countP_congr
    intro p hp
    have hmem : p.1 ∈ ts1 := by
      have hm := tbPairs_map_fst limit window ts1 []
      rw [← hm]
      exact List.mem_map_of_mem Prod.fst hp
    have hle := hts1le p.1 hmem
    simp [hle]
  have hallow := tbAllowedTimes_countP limit window
    (fun (t : Time) => decide ((tEnd : Int) - (t : Int) < (window : Int))) ts1 []
  have hsub := tb_allows_filter_sublist limit window tEnd ts1 [] hts1le
  have hlen : (tbAllowedTimes limit window [] ts1).countP
      (fun (t : Time) => decide ((tEnd : Int) - (t : Int) < (window : Int)))
      ≤ (tbFinal limit window [] ts1).length := by
    rw [List.countP_eq_length_filter]
    have hσ := hsub.length_le
    simpa using hσ
  have hfin := tbFinal_length_le limit window ts1 [] (by simpa using hlim)
  rw [Nat.add_zero, hcongr, hallow]
  omega

/-- Witness for C2 on the concrete 0/10/500/1100 trace with limit 2 and
window 1000, at the rolling interval ending at 500. -/
theorem c2_tb_window_admission_bound_witness :
    (((tbPairs 2 1000 [] [0, 10, 500, 1100]).countP (fun (p : Time × Bool) =>
        p.2 && decide ((500 : Int) - (p.1 : Int) < (1000 : Int))
          && decide (p.1 ≤ 500))) : Int) ≤ 2
    ∧ ((tbFinal 2 1000 [] [0, 10, 500, 1100]).length : Int) ≤ 2 := by
  have h := c2_tb_window_admission_bound 2 1000 [0, 10, 500, 1100]
    (by decide) (by decide)
  exact ⟨h.1 500, h.2⟩

/-- Full case analysis of a non-panicking leaky-bucket step. -/
theorem lbStep_cases (limit : Int) (window now : Time) (calls : List Time)
    (hl : limit ≠ 0) :
    ((retainedCalls window now calls).getLast? = none
      ∧ lbStep limit window now calls
          = some (⟨true, none⟩, retainedCalls window now calls ++ [now]))
    ∨ (∃ last, (retainedCalls window now calls).getLast? = some last
        ∧ ((Int.tdiv (window : Int) limit ≤ (now : Int) - (last : Int)
            ∧ lbStep limit window now calls
                = some (⟨true, none⟩, retainedCalls window now calls ++ [now]))
          ∨ ((now : Int) - (last : Int) < Int.tdiv (window : Int) limit
            ∧ lbStep limit window now calls
                = some (⟨false, some "leaky bucket: rate limit exceeded"⟩,
                        calls)))) := by
  cases hg : (retainedCalls window now calls).getLast? with
  | none => exact Or.inl ⟨rfl, by simp [lbStep, hl, hg]⟩
  | some last =>
    by_cases hi : Int.tdiv (window : Int) limit ≤ (now : Int) - (last : Int)
    · exact Or.inr ⟨last, rfl, Or.inl ⟨hi, by simp [lbStep, hl, hg, hi]⟩⟩
    · exact Or.inr ⟨last, rfl, Or.inr ⟨not_le.mp hi,
        by simp [lbStep, hl, hg, hi]⟩⟩

/-- One-step unfolding of the leaky-bucket allowed-times fold. -/
theorem lbAllowedTimes_cons (limit : Int) (window : Time) (calls : List Time)
    (now : Time) (rest : List Time) :
    lbAllowedTimes limit window calls (now :: rest)
      = match lbStep limit window now calls with
        | none => []
        | some step =>
          if step.1.allowed then
            now :: lbAllowedTimes limit window step.2 rest
          else lbAllowedTimes limit window step.2 rest := rfl

/-- Pruning a nondecreasing history either empties it or keeps its most
recent entry as the last retained entry (retention is upward closed). -/
theorem retained_getLast_of_sorted (window now : Time) :
    ∀ calls : List Time, List.Pairwise (· ≤ ·) calls →
      retainedCalls window now calls = []
      ∨ (retainedCalls window now calls).getLast? = calls.getLast? := by
  intro calls
  induction calls with
  | nil => intro _; exact Or.inl rfl
  | cons c cs ih =>
    intro hp
    rcases List.pairwise_cons.mp hp with ⟨hcle, hcs⟩
    by_cases hc : (now : Int) - (c : Int) < (window : Int)
    · have hkeep : retainedCalls window now (c :: cs)
          = c :: retainedCalls window now cs := by
        rw [retainedCalls, retainedCalls, List.filter_cons,
          if_pos (by simpa using hc)]
      right
      rw [hkeep]
      cases cs with
      | nil => rfl
      | cons c2 cs' =>
        have hc2 : (now : Int) - (c2 : Int) < (window : Int) := by
          have h1 : c ≤ c2 := hcle c2 (List.mem_cons_self c2 cs')
          have h2 : (c : Int) ≤ (c2 : Int) := by exact_mod_cast h1
          omega
        have hne : retainedCalls window now (c2 :: cs') ≠ [] := by
          rw [retainedCalls, List.filter_cons, if_pos (by simpa using hc2)]
          exact List.cons_ne_nil _ _
        rcases ih hcs with hnil | hlast
        · exact absurd hnil hne
        · rcases List.exists_cons_of_ne_nil hne with ⟨a, l, hal⟩
          rw [hal, List.getLast?_cons_cons, ← hal, hlast]
          exact (List.getLast?_cons_cons).symm
    · have hdrop : retainedCalls window now (c :: cs)
          = retainedCalls window now cs := by
        rw [retainedCalls, retainedCalls, List.filter_cons,
          if_neg (by simpa using hc)]
      rw [hdrop]
      cases cs with
      | nil => exact Or.inl rfl
      | cons c2 cs' =>
        rcases ih hcs with hnil | hlast
        · exact Or.inl hnil
        · right
          rw [hlast]
          exact (List.getLast?_cons_cons).symm

/-- With a positive limit the leaky-bucket interval `window / limit` never
exceeds the window. -/
theorem tdiv_window_le (window : Time) (limit : Int) (h : 0 < limit) :
    Int.tdiv (window : Int) limit ≤ (window : Int) := by
  obtain ⟨n, rfl⟩ : ∃ n : Nat, limit = (n : Int) :=
    ⟨limit.toNat, (Int.toNat_of_nonneg h.le).symm⟩
  have hdiv : Int.tdiv (window : Int) (n : Int) = ((window / n : Nat) : Int) :=
    rfl
  rw [hdiv]
  exact_mod_cast Nat.div_le_self window n

/-- Spacing invariant for sequential leaky-bucket runs: starting from a
nondecreasing history that precedes the (nondecreasing) remaining trace, the
most recent stored entry followed by the allowed call times forms a chain
whose consecutive elements are at least `window / limit` apart. -/
theorem lb_allows_spacing_aux (limit : Int) (window : Time) (hpos : 0 < limit) :
    ∀ (times calls : List Time),
      List.Pairwise (· ≤ ·) times →
      List.Pairwise (· ≤ ·) calls →
      (∀ c ∈ calls, ∀ t ∈ times, c ≤ t) →
      List.Chain' (fun a b : Time =>
          Int.tdiv (window : Int) limit ≤ (b : Int) - (a : Int))
        (calls.getLast?.toList ++ lbAllowedTimes limit window calls times) := by
  intro times
  induction times with
  | nil =>
    intro calls _ _ _
    cases h : calls.getLast? <;> simp [lbAllowedTimes, h]
  | cons now rest ih =>
    intro calls hpt hpc hct
    have hl0 : limit ≠ 0 := hpos.ne'
    have hnowrest : ∀ t ∈ rest, now ≤ t := (List.pairwise_cons.mp hpt).1
    have hcallsnow : ∀ c ∈ calls, c ≤ now := fun c hc =>
      hct c hc now (List.mem_cons_self now rest)
    have hpc2 : List.Pairwise (· ≤ ·)
        (retainedCalls window now calls ++ [now]) := by
      rw [List.pairwise_append]
      refine ⟨hpc.filter _, List.pairwise_singleton _ _, ?_⟩
      intro a ha b hb
      rw [List.mem_singleton] at hb
      subst hb
      exact hcallsnow a (List.mem_of_mem_filter ha)
    have hct2 : ∀ c ∈ retainedCalls window now calls ++ [now],
        ∀ t ∈ rest, c ≤ t := by
      intro c hc t ht
      rcases List.mem_append.mp hc with hcr | hcn
      · exact hct c (List.mem_of_mem_filter hcr) t (List.mem_cons_of_mem now ht)
      · rw [List.mem_singleton] at hcn
        subst hcn
        exact hnowrest t ht
    have hihallow := ih (retainedCalls window now calls ++ [now])
      hpt.of_cons hpc2 hct2
    rw [List.getLast?_concat, Option.toList_some, List.singleton_append]
      at hihallow
    rcases lbStep_cases limit window now calls hl0 with
      ⟨hg, heq⟩ | ⟨last, hg, ⟨hi, heq⟩ | ⟨hi, heq⟩⟩
    · -- retained history empty: allow at `now`
      rw [lbAllowedTimes_cons, heq]
      simp only [if_true, ite_true]
      rw [List.getLast?_eq_none_iff] at hg
      cases hgl : calls.getLast? with
      | none =>
        simpa [hgl] using hihallow
      | some c =>
        have hcmem : c ∈ calls := List.mem_of_getLast?_eq_some hgl
        have hcpruned : ¬ ((now : Int) - (c : Int) < (window : Int)) := by
          have hall := List.filter_eq_nil_iff.mp hg
          have := hall c hcmem
          simpa using this
        have hsep : Int.tdiv (window : Int) limit ≤ (now : Int) - (c : Int) := by
          have h1 := tdiv_window_le window limit hpos
          omega
        rw [Option.toList_some, List.singleton_append]
        exact List.chain'_cons.mpr ⟨hsep, hihallow⟩
    · -- last retained entry old enough: allow at `now`
      rw [lbAllowedTimes_cons, heq]
      simp only [if_true, ite_true]
      rcases retained_getLast_of_sorted window now calls hpc with hnil | hlast
      · rw [hnil] at hg
        cases hg
      · have hgl : calls.getLast? = some last := hlast ▸ hg
        rw [hgl, Option.toList_some, List.singleton_append]
        exact List.chain'_cons.mpr ⟨hi, hihallow⟩
    · -- too soon: deny, state unchanged
      rw [lbAllowedTimes_cons, heq]
      simp only [ite_false, Bool.false_eq_true, if_false]
      exact ih calls hpt.of_cons hpc
        (fun c hc t ht => hct c hc t (List.mem_cons_of_mem now ht))

/-- Claim C3: leaky-bucket minimum spacing.  With a positive limit and
nondecreasing call times, consecutive allowed calls are at least
`window / limit` (Go duration division) apart; a call whose retained history
has a most recent entry closer than that interval is denied without storing;
a call with no retained entry, or one at least the interval after the last
retained entry, appends `now` and is allowed. -/
theorem c3_leaky_min_spacing :
    (∀ (limit : Int) (window : Time) (times : List Time),
        0 < limit → List.Pairwise (· ≤ ·) times →
        List.Chain' (fun a b : Time =>
            Int.tdiv (window : Int) limit ≤ (b : Int) - (a : Int))
          (lbAllowedTimes limit window [] times))
    ∧ (∀ (limit : Int) (window now : Time) (calls : List Time) (last : Time),
        limit ≠ 0 →
        (retainedCalls window now calls).getLast? = some last →
        (now : Int) - (last : Int) < Int.tdiv (window : Int) limit →
        lbStep limit window now calls
          = some (⟨false, some "leaky bucket: rate limit exceeded"⟩, calls))
    ∧ (∀ (limit : Int) (window now : Time) (calls : List Time),
        limit ≠ 0 →
        retainedCalls window now calls = [] →
        lbStep limit window now calls = some (⟨true, none⟩, [now]))
    ∧ (∀ (limit : Int) (window now : Time) (calls : List Time) (last : Time),
        limit ≠ 0 →
        (retainedCalls window now calls).getLast? = some last →
        Int.tdiv (window : Int) limit ≤ (now : Int) - (last : Int) →
        lbStep limit window now calls
          = some (⟨true, none⟩, retainedCalls window now calls ++ [now])) := by
  refine ⟨?_, ?_, ?_, ?_⟩
  · intro limit window times hpos hsort
    have h := lb_allows_spacing_aux limit window hpos times []
      hsort List.Pairwise.nil (by simp)
    simpa using h
  · intro limit window now calls last hl hg hi
    simp [lbStep, hl, hg, not_le.mpr hi]
  · intro limit window now calls hl hg
    have hg2 : (retainedCalls window now calls).getLast? = none := by
      rw [hg]; rfl
    simp [lbStep, hl, hg2, hg]
  · intro limit window now calls last hl hg hi
    simp [lbStep, hl, hg, hi]

/-- Witness for C3 at limit 2, window 1000 (interval 500): trace 0/100/600
allows at 0 and 600 with spacing 600 ≥ 500; a call at 100 after an entry at 0
is denied; a call at 600 with empty history, or after the entry at 0, is
allowed and stored. -/
theorem c3_leaky_min_spacing_witness :
    List.Chain' (fun a b : Time =>
        Int.tdiv ((1000 : Nat) : Int) (2 : Int) ≤ (b : Int) - (a : Int))
      (lbAllowedTimes 2 1000 [] [0, 100, 600])
    ∧ lbStep 2 1000 100 [0]
        = some (⟨false, some "leaky bucket: rate limit exceeded"⟩, [0])
    ∧ lbStep 2 1000 600 []
        = some (⟨true, none⟩, [600])
    ∧ lbStep 2 1000 600 [0]
        = some (⟨true, none⟩, [0, 600]) := by
  refine ⟨?_, ?_, ?_, ?_⟩
  · exact c3_leaky_min_spacing.1 2 1000 [0, 100, 600] (by decide) (by decide)
  · exact c3_leaky_min_spacing.2.1 2 1000 100 [0] 0 (by decide) (by decide)
      (by decide)
  · exact c3_leaky_min_spacing.2.2.1 2 1000 600 [] (by decide) (by decide)
  · have h := c3_leaky_min_spacing.2.2.2 2 1000 600 [0] 0 (by decide)
      (by decide) (by decide)
    simpa using h

/-- One-step unfolding of the shared-backend outcome fold. -/
theorem rdOuts_cons (limit : Int) (window : Time) (zs : ZSet)
    (now : Time) (rest : List Time) :
    rdOuts limit window zs (now :: rest)
      = (rdStep limit window now zs).1.allowed
        :: rdOuts limit window (rdStep limit window now zs).2 rest := rfl

/-- One-step unfolding of the local-backend outcome fold. -/
theorem tbOuts_cons (limit : Int) (window : Time) (calls : List Time)
    (now : Time) (rest : List Time) :
    tbOuts limit window calls (now :: rest)
      = (tbStep limit window now calls).1.allowed
        :: tbOuts limit window (tbStep limit window now calls).2 rest := rfl

/-- When the remote set mirrors the local history and no member collision
occurs, the two backends take the same decision at each step and stay in
correspondence while every local decision is an allow. -/
theorem rd_tb_outs_agree (limit : Int) (window : Time) :
    ∀ (times calls : List Time) (zs : ZSet),
      zs = calls.map (fun t => (zMember t, t)) →
      (∀ t ∈ times, ∀ c ∈ calls, zMember t ≠ zMember c) →
      List.Pairwise (fun a b => zMember a ≠ zMember b) times →
      ∀ n : Nat,
        (∀ j < n, (tbOuts limit window calls times).get? j = some true) →
        (rdOuts limit window zs times).take (n + 1)
          = (tbOuts limit window calls times).take (n + 1) := by
  intro times
  induction times with
  | nil => intro calls zs hzs hdist hpw n hpre; rfl
  | cons now rest ih =>
    intro calls zs hzs hdist hpw n hpre
    subst hzs
    have hnowdist : ∀ c ∈ calls, zMember now ≠ zMember c :=
      fun c hc => hdist now (List.mem_cons_self now rest) c hc
    have hrem : zRemExpired window now (calls.map (fun t => (zMember t, t)))
        = (retainedCalls window now calls).map (fun t => (zMember t, t)) := by
      rw [zRemExpired, retainedCalls, List.filter_map]
      congr 1
      apply List.filter_congr
      intro t ht
      simp only [Function.comp_apply]
      rw [decide_eq_decide]
      constructor <;> intro h <;> omega
    have hfresh : ((retainedCalls window now calls).map
        (fun t => (zMember t, t))).any
          (fun e => decide (e.1 = zMember now)) = false := by
      rw [List.any_eq_false]
      intro e he
      rcases List.mem_map.mp he with ⟨c, hc, rfl⟩
      have := hnowdist c (List.mem_of_mem_filter hc)
      simp only [decide_eq_true_eq]
      intro hcol
      exact this hcol.symm
    have hadd : zAdd (zMember now) now
          (zRemExpired window now (calls.map (fun t => (zMember t, t))))
        = ((retainedCalls window now calls) ++ [now]).map
            (fun t => (zMember t, t)) := by
      rw [hrem, zAdd, hfresh]
      simp
    have hlen : ((zAdd (zMember now) now
          (zRemExpired window now (calls.map (fun t => (zMember t, t))))).length
            : Int)
        = ((retainedCalls window now calls).length : Int) + 1 := by
      rw [hadd]
      simp
    rw [rdOuts_cons, tbOuts_cons]
    by_cases hcnt : limit ≤ ((retainedCalls window now calls).length : Int)
    · -- both backends deny at this position
      have hl2 : limit < ((zAdd (zMember now) now
          (zRemExpired window now (calls.map (fun t => (zMember t, t))))).length
            : Int) := by
        rw [hlen]; omega
      have hrd1 : (rdStep limit window now
          (calls.map (fun t => (zMember t, t)))).1
            = ⟨false, some "rate limit exceeded"⟩ := by
        simp [rdStep, hl2]
      have htb1 : (tbStep limit window now calls).1
          = ⟨false, some "rate limit exceeded"⟩ := by
        simp [tbStep, hcnt]
      rw [hrd1, htb1]
      cases n with
      | zero => simp
      | succ m =>
        exfalso
        have h0 := hpre 0 (Nat.succ_pos m)
        rw [tbOuts_cons, htb1] at h0
        simp at h0
    · -- both backends allow and the correspondence is preserved
      have hl2 : ¬ (limit < ((zAdd (zMember now) now
          (zRemExpired window now (calls.map (fun t => (zMember t, t))))).length
            : Int)) := by
        rw [hlen]; omega
      have hrd : rdStep limit window now (calls.map (fun t => (zMember t, t)))
          = (⟨true, none⟩, ((retainedCalls window now calls) ++ [now]).map
              (fun t => (zMember t, t))) := by
        rw [rdStep.eq_def]
        rw [if_neg hl2, hadd]
      have htb : tbStep limit window now calls
          = (⟨true, none⟩, retainedCalls window now calls ++ [now]) := by
        simp [tbStep, hcnt]
      rw [hrd, htb]
      cases n with
      | zero => simp
      | succ m =>
        rw [List.take_succ_cons, List.take_succ_cons]
        congr 1
        have hdist2 : ∀ t ∈ rest, ∀ c ∈ retainedCalls window now calls ++ [now],
            zMember t ≠ zMember c := by
          intro t ht c hc
          rcases List.mem_append.mp hc with hcr | hcn
          · exact hdist t (List.mem_cons_of_mem now ht) c
              (List.mem_of_mem_filter hcr)
          · rw [List.mem_singleton] at hcn
            subst hcn
            exact ((List.pairwise_cons.mp hpw).1 t ht).symm
        have hpre2 : ∀ j < m,
            (tbOuts limit window (retainedCalls window now calls ++ [now])
              rest).get? j = some true := by
          intro j hj
          have h1 := hpre (j + 1) (Nat.succ_lt_succ hj)
          rw [tbOuts_cons, htb] at h1
          simpa using h1
        exact ih (retainedCalls window now calls ++ [now]) _ rfl hdist2
          hpw.of_cons m hpre2

/-- Claim C7 (amended): as long as no timestamps share a microsecond (no
Redis member collision) and no deny has yet occurred, the local and shared
token-bucket paths produce identical allow/deny outcomes on identical call
sequences — so the first divergence can only follow a denial (the documented
denial-does-not-retract edge of §4.4) or a member collision. -/
theorem c7_backend_equivalence_until_deny :
    ∀ (limit : Int) (window : Time) (times : List Time),
      List.Pairwise (fun a b => zMember a ≠ zMember b) times →
      ∀ n : Nat,
        (∀ j < n, (tbOuts limit window [] times).get? j = some true) →
        (rdOuts limit window [] times).take (n + 1)
          = (tbOuts limit window [] times).take (n + 1) := by
  intro limit window times hpw n hpre
  exact rd_tb_outs_agree limit window times [] [] rfl (by simp) hpw n hpre

/-- Witness for C7: limit 1, window 1ms, calls at 0ns and 2000ns (distinct
microseconds); the first call allows on both paths and the second denies on
both, so the two-outcome prefixes agree. -/
theorem c7_backend_equivalence_until_deny_witness :
    (rdOuts 1 1000000 [] [0, 2000]).take 2
      = (tbOuts 1 1000000 [] [0, 2000]).take 2 := by
  have h := c7_backend_equivalence_until_deny 1 1000000 [0, 2000]
    (by decide) 1 ?_
  · exact h
  · intro j hj
    have hj0 : j = 0 := by omega
    subst hj0
    decide

/-- Counterexample to C7 as stated: with limit 2, a one-second window and
sequential calls at 0ns, 1ns and 2ns, the local path yields allow, allow,
deny while the shared path yields allow, allow, allow — the three calls share
one microsecond, so each `ZAdd` overwrites the same member and the remote
count stays 1.  The divergence is preceded by no denial and involves no
concurrency, so it falls under neither documented §4.2/§4.4 edge case. -/
theorem c7_member_collision_counterexample :
    tbOuts 2 1000000000 [] [0, 1, 2] = [true, true, false]
    ∧ rdOuts 2 1000000000 [] [0, 1, 2] = [true, true, true] := by
  exact ⟨by decide, by decide⟩

end RateLimiter
